import Mathlib

/- Verification of the contact-manager bot (src/Consol_bot_v.3.0.py).

   Dates are modelled as proleptic-Gregorian year/month/day triples of
   naturals, matching Python `datetime.date` (whose validity rule is
   1 <= year <= 9999, 1 <= month <= 12, 1 <= day <= days in month).
   Strings are modelled as `List Char` where character-level reasoning is
   needed, otherwise as `String`.  The model restricts itself to ASCII
   digit characters (Python's `\d` and `%d`/`%m`/`%Y` additionally accept
   other Unicode decimal digits; no claim depends on those). -/

structure Date where
  year : Nat
  month : Nat
  day : Nat
deriving DecidableEq

/-- Leap-year rule used by Python `datetime`: divisible by 4 and
    (not by 100 or by 400). -/
def isLeap (y : Nat) : Bool :=
  decide (y % 4 = 0) && (decide (y % 100 ≠ 0) || decide (y % 400 = 0))

def daysInMonth (y m : Nat) : Nat :=
  if m = 2 then (if isLeap y then 29 else 28)
  else if m = 4 ∨ m = 6 ∨ m = 9 ∨ m = 11 then 30
  else 31

/-- Validity check of Python `date(year, month, day)`. -/
def validDate (d : Date) : Bool :=
  decide (1 ≤ d.year) && decide (d.year ≤ 9999) &&
  decide (1 ≤ d.month) && decide (d.month ≤ 12) &&
  decide (1 ≤ d.day) && decide (d.day ≤ daysInMonth d.year d.month)

/-- Python `date(y, m, d)`: `some` on a valid triple, `none` models the
    `ValueError` raised on an invalid one. -/
def mkDateChecked (y m d : Nat) : Option Date :=
  if validDate ⟨y, m, d⟩ then some ⟨y, m, d⟩ else none

/-- Python `date.__lt__`: lexicographic on (year, month, day). -/
def dateLt (a b : Date) : Bool :=
  decide (a.year < b.year) ||
  (decide (a.year = b.year) &&
    (decide (a.month < b.month) ||
      (decide (a.month = b.month) && decide (a.day < b.day))))

/-- Days in the given year strictly before the first of the given month. -/
def daysBeforeMonth (y m : Nat) : Nat :=
  let L : Nat := if isLeap y then 1 else 0
  match m with
  | 1 => 0 | 2 => 31 | 3 => 59 + L | 4 => 90 + L | 5 => 120 + L
  | 6 => 151 + L | 7 => 181 + L | 8 => 212 + L | 9 => 243 + L
  | 10 => 273 + L | 11 => 304 + L | _ => 334 + L

/-- Python `date.toordinal`: day number in the proleptic Gregorian
    calendar, with 0001-01-01 being day 1. -/
def toOrdinal (d : Date) : Nat :=
  365 * (d.year - 1) + (d.year - 1) / 4 + (d.year - 1) / 400 +
    daysBeforeMonth d.year d.month + d.day - (d.year - 1) / 100

/-- Python `date.strftime('%A')`: full weekday name; ordinal 1 was a
    Monday. -/
def weekdayName (d : Date) : String :=
  match (toOrdinal d - 1) % 7 with
  | 0 => "Monday" | 1 => "Tuesday" | 2 => "Wednesday" | 3 => "Thursday"
  | 4 => "Friday" | 5 => "Saturday" | _ => "Sunday"

/-- Python `date.replace(year := y)`: rebuilds the date with the new year,
    re-validating it (raises, i.e. `none`, for Feb 29 in a non-leap year). -/
def replaceYear (d : Date) (y : Nat) : Option Date :=
  mkDateChecked y d.month d.day

/-- Value of an ASCII digit character. -/
def digitVal (c : Char) : Nat := c.toNat - 48

/-- ASCII digit character of a value below 10. -/
def digitChar (n : Nat) : Char := Char.ofNat (48 + n)

/-- Last two decimal digits, zero padded (`%d` / `%m` output of
    `strftime` for values below 100). -/
def pad2 (n : Nat) : List Char := [digitChar (n / 10 % 10), digitChar (n % 10)]

/-- Last four decimal digits, zero padded (`%Y` output of `strftime` for
    years up to 9999; zero padding of `%Y` is platform dependent in
    CPython, the common 4-digit form is modelled). -/
def pad4 (n : Nat) : List Char :=
  [digitChar (n / 1000 % 10), digitChar (n / 100 % 10),
   digitChar (n / 10 % 10), digitChar (n % 10)]

/-- Python `date.strftime("%d.%m.%Y")`, used by `Birthday.__str__`. -/
def renderDate (d : Date) : List Char :=
  pad2 d.day ++ '.' :: (pad2 d.month ++ '.' :: pad4 d.year)

/-- Consume exactly `n` ASCII digit characters, returning the rest of the
    input (the `\d{10}` part of the phone regex). -/
def digitsTake : Nat → List Char → Option (List Char)
  | 0, rest => some rest
  | _ + 1, [] => none
  | n + 1, c :: rest => if c.isDigit then digitsTake n rest else none

/-- Python `re.match(r"^\d{10}$", value)` from `Phone.validate`.  `re.match`
    anchors at the start, and `$` matches at the end of the string or just
    before a newline that ends the string. -/
def phoneValidate (s : List Char) : Bool :=
  match digitsTake 10 s with
  | some rest => decide (rest = []) || decide (rest = ['\n'])
  | none => false

/-- The `%d` directive of CPython `strptime`, whose regular expression is
    `3[01]|[12]\d|0[1-9]|[1-9]`: one- or two-digit day in 1..31, `00`
    excluded. -/
def dayTok : List Char → Option Nat
  | [c] => if '1' ≤ c ∧ c ≤ '9' then some (digitVal c) else none
  | [c1, c2] =>
    if c1 = '3' ∧ (c2 = '0' ∨ c2 = '1') then some (30 + digitVal c2)
    else if (c1 = '1' ∨ c1 = '2') ∧ c2.isDigit then
      some (10 * digitVal c1 + digitVal c2)
    else if c1 = '0' ∧ ('1' ≤ c2 ∧ c2 ≤ '9') then some (digitVal c2)
    else none
  | _ => none

/-- The `%m` directive of CPython `strptime`, regular expression
    `1[0-2]|0[1-9]|[1-9]`: one- or two-digit month in 1..12, `00`
    excluded. -/
def monthTok : List Char → Option Nat
  | [c] => if '1' ≤ c ∧ c ≤ '9' then some (digitVal c) else none
  | [c1, c2] =>
    if c1 = '1' ∧ (c2 = '0' ∨ c2 = '1' ∨ c2 = '2') then some (10 + digitVal c2)
    else if c1 = '0' ∧ ('1' ≤ c2 ∧ c2 ≤ '9') then some (digitVal c2)
    else none
  | _ => none

/-- The `%Y` directive of CPython `strptime`, regular expression
    `\d\d\d\d`: exactly four digits. -/
def yearTok : List Char → Option Nat
  | [a, b, c, d] =>
    if a.isDigit ∧ b.isDigit ∧ c.isDigit ∧ d.isDigit then
      some (1000 * digitVal a + 100 * digitVal b + 10 * digitVal c + digitVal d)
    else none
  | _ => none

/-- Split a character list at every `'.'`.  Because the day, month and
    year tokens of the format `%d.%m.%Y` consist of digits only, matching
    the whole format regular expression against the whole string is
    equivalent to this split producing exactly three token parts. -/
def splitOnDot : List Char → List (List Char)
  | [] => [[]]
  | c :: rest =>
    if c = '.' then [] :: splitOnDot rest
    else
      match splitOnDot rest with
      | [] => [[c]]
      | g :: gs => (c :: g) :: gs

/-- Python `datetime.strptime(value, "%d.%m.%Y").date()` as used by the
    `Birthday` field: `none` models the `ValueError` raised on a parse or
    calendar-validity failure. -/
def birthdayParse (s : List Char) : Option Date :=
  match splitOnDot s with
  | [ds, ms, ys] =>
    match dayTok ds, monthTok ms, yearTok ys with
    | some d, some m, some y => mkDateChecked y m d
    | _, _, _ => none
  | _ => none

/-- The format the specification asserts for `Birthday`: strictly
    two-digit day, two-digit month, four-digit year, separated by dots,
    forming a real calendar date.  (Spec-side definition used to compare
    the claimed behaviour with the implemented one.) -/
def specStrictDDMMYYYY (s : List Char) : Bool :=
  match s with
  | [d1, d2, dot1, m1, m2, dot2, y1, y2, y3, y4] =>
    decide (dot1 = '.') && decide (dot2 = '.') &&
    d1.isDigit && d2.isDigit && m1.isDigit && m2.isDigit &&
    y1.isDigit && y2.isDigit && y3.isDigit && y4.isDigit &&
    (mkDateChecked
      (1000 * digitVal y1 + 100 * digitVal y2 + 10 * digitVal y3 + digitVal y4)
      (10 * digitVal m1 + digitVal m2)
      (10 * digitVal d1 + digitVal d2)).isSome
  | _ => false

lemma digitsTake_eq (n : Nat) (s : List Char) :
    digitsTake n s =
      if n ≤ s.length ∧ (s.take n).all Char.isDigit then some (s.drop n)
      else none := by
  induction n generalizing s with
  | zero => simp [digitsTake]
  | succ n ih =>
    cases s with
    | nil => simp [digitsTake]
    | cons c cs =>
      by_cases hc : c.isDigit
      · rw [digitsTake, if_pos hc, ih]
        simp [hc, Nat.succ_le_succ_iff]
      · rw [digitsTake, if_neg hc, if_neg]
        simp only [List.take_succ_cons, List.all_cons, not_and]
        intro _
        simp [hc]

lemma phoneValidate_iff (s : List Char) :
    phoneValidate s = true ↔
      10 ≤ s.length ∧ (s.take 10).all Char.isDigit = true ∧
        (s.drop 10 = [] ∨ s.drop 10 = ['\n']) := by
  rw [phoneValidate, digitsTake_eq]
  by_cases h : 10 ≤ s.length ∧ (s.take 10).all Char.isDigit
  · rw [if_pos h]
    simp [h, and_assoc]
  · rw [if_neg h]
    simp only [Bool.false_eq_true, false_iff, not_and]
    exact fun h1 h2 _ => h ⟨h1, h2⟩

lemma isDigit_exists (c : Char) (h : c.isDigit = true) :
    ∃ k, k < 10 ∧ c = digitChar k ∧ digitVal c = k := by
  rw [Char.isDigit] at h
  simp only [Bool.and_eq_true, decide_eq_true_eq] at h
  have h1 : 48 ≤ c.toNat := UInt32.le_toNat_of_le (by norm_num) h.1
  have h2 : c.toNat ≤ 57 := UInt32.toNat_le_of_le (by norm_num) h.2
  have h48 : 48 + (c.toNat - 48) = c.toNat := by omega
  refine ⟨c.toNat - 48, by omega, ?_, rfl⟩
  rw [digitChar, h48, Char.ofNat_toNat]

lemma digitChar_spec (k : Nat) (h : k < 10) :
    (digitChar k).isDigit = true ∧ digitVal (digitChar k) = k ∧
      digitChar k ≠ '.' := by
  interval_cases k <;> refine ⟨by decide, by decide, by decide⟩

lemma splitOnDot_cons_dot (s : List Char) :
    splitOnDot ('.' :: s) = [] :: splitOnDot s := by
  rw [splitOnDot, if_pos rfl]

lemma splitOnDot_all_ne (s : List Char) (h : ∀ c ∈ s, c ≠ '.') :
    splitOnDot s = [s] := by
  induction s with
  | nil => rfl
  | cons c cs ih =>
    rw [splitOnDot, if_neg (h c (List.mem_cons_self c cs)),
      ih (fun x hx => h x (List.mem_cons_of_mem _ hx))]

lemma splitOnDot_append (t s : List Char) (ht : ∀ c ∈ t, c ≠ '.')
    (g : List Char) (gs : List (List Char)) (hs : splitOnDot s = g :: gs) :
    splitOnDot (t ++ s) = (t ++ g) :: gs := by
  induction t with
  | nil => simpa using hs
  | cons c cs ih =>
    rw [List.cons_append, splitOnDot,
      if_neg (ht c (List.mem_cons_self c cs)),
      ih (fun x hx => ht x (List.mem_cons_of_mem _ hx))]
    rfl

lemma pad2_ne_dot (n : Nat) : ∀ c ∈ pad2 n, c ≠ '.' := by
  intro c hc
  rw [pad2] at hc
  simp only [List.mem_cons, List.not_mem_nil, or_false] at hc
  rcases hc with rfl | rfl
  · exact (digitChar_spec _ (Nat.mod_lt _ (by omega))).2.2
  · exact (digitChar_spec _ (Nat.mod_lt _ (by omega))).2.2

lemma pad4_ne_dot (n : Nat) : ∀ c ∈ pad4 n, c ≠ '.' := by
  intro c hc
  rw [pad4] at hc
  simp only [List.mem_cons, List.not_mem_nil, or_false] at hc
  rcases hc with rfl | rfl | rfl | rfl <;>
    exact (digitChar_spec _ (Nat.mod_lt _ (by omega))).2.2

lemma splitOnDot_renderDate (d : Date) :
    splitOnDot (renderDate d) = [pad2 d.day, pad2 d.month, pad4 d.year] := by
  have h4 : splitOnDot (pad4 d.year) = [pad4 d.year] :=
    splitOnDot_all_ne _ (pad4_ne_dot _)
  have h3 : splitOnDot ('.' :: pad4 d.year) = [] :: [pad4 d.year] := by
    rw [splitOnDot_cons_dot, h4]
  have h2 : splitOnDot (pad2 d.month ++ '.' :: pad4 d.year) =
      [pad2 d.month, pad4 d.year] := by
    have := splitOnDot_append (pad2 d.month) _ (pad2_ne_dot _) [] [pad4 d.year] h3
    simpa using this
  have h1 : splitOnDot ('.' :: (pad2 d.month ++ '.' :: pad4 d.year)) =
      [] :: [pad2 d.month, pad4 d.year] := by
    rw [splitOnDot_cons_dot, h2]
  have h0 := splitOnDot_append (pad2 d.day) _ (pad2_ne_dot _) []
    [pad2 d.month, pad4 d.year] h1
  simpa [renderDate] using h0

lemma dayTok_pad2 (n : Nat) (h1 : 1 ≤ n) (h2 : n ≤ 31) :
    dayTok (pad2 n) = some n := by
  interval_cases n <;> decide

lemma monthTok_pad2 (n : Nat) (h1 : 1 ≤ n) (h2 : n ≤ 12) :
    monthTok (pad2 n) = some n := by
  interval_cases n <;> decide

lemma yearTok_pad4 (n : Nat) (h : n ≤ 9999) : yearTok (pad4 n) = some n := by
  have s1 := digitChar_spec (n / 1000 % 10) (Nat.mod_lt _ (by omega))
  have s2 := digitChar_spec (n / 100 % 10) (Nat.mod_lt _ (by omega))
  have s3 := digitChar_spec (n / 10 % 10) (Nat.mod_lt _ (by omega))
  have s4 := digitChar_spec (n % 10) (Nat.mod_lt _ (by omega))
  rw [pad4, yearTok, if_pos ⟨s1.1, s2.1, s3.1, s4.1⟩,
    s1.2.1, s2.2.1, s3.2.1, s4.2.1]
  congr 1
  omega

lemma daysInMonth_le_31 (y m : Nat) : daysInMonth y m ≤ 31 := by
  rw [daysInMonth]
  split
  · split <;> omega
  · split <;> omega

lemma validDate_iff (d : Date) :
    validDate d = true ↔
      1 ≤ d.year ∧ d.year ≤ 9999 ∧ 1 ≤ d.month ∧ d.month ≤ 12 ∧
        1 ≤ d.day ∧ d.day ≤ daysInMonth d.year d.month := by
  simp [validDate, and_assoc]

lemma birthdayParse_renderDate (d : Date) (h : validDate d = true) :
    birthdayParse (renderDate d) = some d := by
  have hv := h
  rw [validDate_iff] at h
  obtain ⟨hy1, hy2, hm1, hm2, hd1, hd2⟩ := h
  have hd31 : d.day ≤ 31 := le_trans hd2 (daysInMonth_le_31 _ _)
  rw [birthdayParse, splitOnDot_renderDate]
  simp only [dayTok_pad2 _ hd1 hd31, monthTok_pad2 _ hm1 hm2, yearTok_pad4 _ hy2]
  rw [mkDateChecked, if_pos hv]

lemma mkDateChecked_some (y m dd : Nat) (d : Date)
    (h : mkDateChecked y m dd = some d) :
    validDate d = true ∧ d = ⟨y, m, dd⟩ := by
  rw [mkDateChecked] at h
  by_cases hv : validDate ⟨y, m, dd⟩ = true
  · rw [if_pos hv] at h
    injection h with h
    exact ⟨h ▸ hv, h.symm⟩
  · rw [if_neg hv] at h
    cases h

lemma pad2_digits (k1 k2 : Nat) (h1 : k1 < 10) (h2 : k2 < 10) :
    pad2 (10 * k1 + k2) = [digitChar k1, digitChar k2] := by
  have e1 : (10 * k1 + k2) / 10 % 10 = k1 := by omega
  have e2 : (10 * k1 + k2) % 10 = k2 := by omega
  rw [pad2, e1, e2]

lemma pad4_digits (k1 k2 k3 k4 : Nat) (h1 : k1 < 10) (h2 : k2 < 10)
    (h3 : k3 < 10) (h4 : k4 < 10) :
    pad4 (1000 * k1 + 100 * k2 + 10 * k3 + k4) =
      [digitChar k1, digitChar k2, digitChar k3, digitChar k4] := by
  have e1 : (1000 * k1 + 100 * k2 + 10 * k3 + k4) / 1000 % 10 = k1 := by omega
  have e2 : (1000 * k1 + 100 * k2 + 10 * k3 + k4) / 100 % 10 = k2 := by omega
  have e3 : (1000 * k1 + 100 * k2 + 10 * k3 + k4) / 10 % 10 = k3 := by omega
  have e4 : (1000 * k1 + 100 * k2 + 10 * k3 + k4) % 10 = k4 := by omega
  rw [pad4, e1, e2, e3, e4]

lemma dayTok_digits (k1 k2 : Nat) (h1 : k1 < 10) (h2 : k2 < 10)
    (hlo : 1 ≤ 10 * k1 + k2) (hhi : 10 * k1 + k2 ≤ 31) :
    dayTok [digitChar k1, digitChar k2] = some (10 * k1 + k2) := by
  interval_cases k1 <;> interval_cases k2 <;> first | (exfalso; omega) | decide

lemma monthTok_digits (k1 k2 : Nat) (h1 : k1 < 10) (h2 : k2 < 10)
    (hlo : 1 ≤ 10 * k1 + k2) (hhi : 10 * k1 + k2 ≤ 12) :
    monthTok [digitChar k1, digitChar k2] = some (10 * k1 + k2) := by
  interval_cases k1 <;> interval_cases k2 <;> first | (exfalso; omega) | decide

lemma yearTok_digits (k1 k2 k3 k4 : Nat) (h1 : k1 < 10) (h2 : k2 < 10)
    (h3 : k3 < 10) (h4 : k4 < 10) :
    yearTok [digitChar k1, digitChar k2, digitChar k3, digitChar k4] =
      some (1000 * k1 + 100 * k2 + 10 * k3 + k4) := by
  have s1 := digitChar_spec k1 h1
  have s2 := digitChar_spec k2 h2
  have s3 := digitChar_spec k3 h3
  have s4 := digitChar_spec k4 h4
  rw [yearTok, if_pos ⟨s1.1, s2.1, s3.1, s4.1⟩, s1.2.1, s2.2.1, s3.2.1, s4.2.1]

lemma strict_parse (d1 d2 m1 m2 y1 y2 y3 y4 : Char)
    (h : specStrictDDMMYYYY [d1, d2, '.', m1, m2, '.', y1, y2, y3, y4] = true) :
    ∃ d : Date,
      birthdayParse [d1, d2, '.', m1, m2, '.', y1, y2, y3, y4] = some d ∧
        renderDate d = [d1, d2, '.', m1, m2, '.', y1, y2, y3, y4] := by
  simp only [specStrictDDMMYYYY, Bool.and_eq_true, decide_eq_true_eq,
    Option.isSome_iff_exists] at h
  obtain ⟨⟨⟨⟨⟨⟨⟨⟨⟨⟨_, _⟩, hd1⟩, hd2⟩, hm1⟩, hm2⟩, hy1⟩, hy2⟩, hy3⟩, hy4⟩,
    d, hd⟩ := h
  obtain ⟨kd1, hkd1, rfl, vd1⟩ := isDigit_exists d1 hd1
  obtain ⟨kd2, hkd2, rfl, vd2⟩ := isDigit_exists d2 hd2
  obtain ⟨km1, hkm1, rfl, vm1⟩ := isDigit_exists m1 hm1
  obtain ⟨km2, hkm2, rfl, vm2⟩ := isDigit_exists m2 hm2
  obtain ⟨ky1, hky1, rfl, vy1⟩ := isDigit_exists y1 hy1
  obtain ⟨ky2, hky2, rfl, vy2⟩ := isDigit_exists y2 hy2
  obtain ⟨ky3, hky3, rfl, vy3⟩ := isDigit_exists y3 hy3
  obtain ⟨ky4, hky4, rfl, vy4⟩ := isDigit_exists y4 hy4
  rw [vd1, vd2, vm1, vm2, vy1, vy2, vy3, vy4] at hd
  obtain ⟨hdval, rfl⟩ := mkDateChecked_some _ _ _ _ hd
  rw [validDate_iff] at hdval
  obtain ⟨-, hY2, hM1, hM2, hD1, hD2⟩ := hdval
  have hD31 : 10 * kd1 + kd2 ≤ 31 := le_trans hD2 (daysInMonth_le_31 _ _)
  have hsplit : splitOnDot
      [digitChar kd1, digitChar kd2, '.', digitChar km1, digitChar km2, '.',
        digitChar ky1, digitChar ky2, digitChar ky3, digitChar ky4] =
      [[digitChar kd1, digitChar kd2], [digitChar km1, digitChar km2],
        [digitChar ky1, digitChar ky2, digitChar ky3, digitChar ky4]] := by
    have t4 : splitOnDot
        [digitChar ky1, digitChar ky2, digitChar ky3, digitChar ky4] =
        [[digitChar ky1, digitChar ky2, digitChar ky3, digitChar ky4]] := by
      apply splitOnDot_all_ne
      intro c hc
      simp only [List.mem_cons, List.not_mem_nil, or_false] at hc
      rcases hc with rfl | rfl | rfl | rfl
      · exact (digitChar_spec _ hky1).2.2
      · exact (digitChar_spec _ hky2).2.2
      · exact (digitChar_spec _ hky3).2.2
      · exact (digitChar_spec _ hky4).2.2
    have t2 : splitOnDot
        ([digitChar km1, digitChar km2] ++ '.' ::
          [digitChar ky1, digitChar ky2, digitChar ky3, digitChar ky4]) =
        [[digitChar km1, digitChar km2],
          [digitChar ky1, digitChar ky2, digitChar ky3, digitChar ky4]] := by
      apply splitOnDot_append
      · intro c hc
        simp only [List.mem_cons, List.not_mem_nil, or_false] at hc
        rcases hc with rfl | rfl
        · exact (digitChar_spec _ hkm1).2.2
        · exact (digitChar_spec _ hkm2).2.2
      · rw [splitOnDot_cons_dot, t4]
    have t0 := splitOnDot_append [digitChar kd1, digitChar kd2]
      ('.' :: ([digitChar km1, digitChar km2] ++ '.' ::
        [digitChar ky1, digitChar ky2, digitChar ky3, digitChar ky4]))
      (by
        intro c hc
        simp only [List.mem_cons, List.not_mem_nil, or_false] at hc
        rcases hc with rfl | rfl
        · exact (digitChar_spec _ hkd1).2.2
        · exact (digitChar_spec _ hkd2).2.2)
      [] _ (by rw [splitOnDot_cons_dot, t2])
    simpa using t0
  refine ⟨⟨1000 * ky1 + 100 * ky2 + 10 * ky3 + ky4,
    10 * km1 + km2, 10 * kd1 + kd2⟩, ?_, ?_⟩
  · rw [birthdayParse, hsplit]
    simp only [dayTok_digits _ _ hkd1 hkd2 hD1 hD31,
      monthTok_digits _ _ hkm1 hkm2 hM1 hM2,
      yearTok_digits _ _ _ _ hky1 hky2 hky3 hky4]
    exact hd
  · show pad2 (10 * kd1 + kd2) ++ '.' ::
      (pad2 (10 * km1 + km2) ++ '.' ::
        pad4 (1000 * ky1 + 100 * ky2 + 10 * ky3 + ky4)) = _
    rw [pad2_digits _ _ hkd1 hkd2, pad2_digits _ _ hkm1 hkm2,
      pad4_digits _ _ _ _ hky1 hky2 hky3 hky4]
    rfl

/-- C4 counterexample: the phone check of the source accepts the string
    "1234567890\n" (ten digits followed by a newline), because Python's
    `$` also matches just before a trailing newline; so acceptance is not
    equivalent to "exactly 10 decimal digit characters with no leading or
    trailing characters". -/
theorem c4_counterexample_trailing_newline :
    phoneValidate "1234567890\n".data = true ∧
      ¬ ("1234567890\n".data.length = 10 ∧
          "1234567890\n".data.all Char.isDigit = true) := by
  decide

/-- C4 (amended): Phone construction succeeds iff the string is exactly
    10 decimal digit characters, or 10 decimal digit characters followed
    by one trailing newline; every other string fails validation. -/
theorem c4_phone_validation (s : List Char) :
    phoneValidate s = true ↔
      (s.length = 10 ∧ s.all Char.isDigit = true) ∨
      (s.length = 11 ∧ (s.take 10).all Char.isDigit = true ∧
        s.drop 10 = ['\n']) := by
  rw [phoneValidate_iff]
  constructor
  · rintro ⟨hlen, hall, hrest | hrest⟩
    · left
      have hl : s.length = 10 := by
        have := congrArg List.length hrest
        simp only [List.length_drop, List.length_nil] at this
        omega
      refine ⟨hl, ?_⟩
      rw [List.take_of_length_le (by omega)] at hall
      exact hall
    · right
      have hl : s.length = 11 := by
        have := congrArg List.length hrest
        simp only [List.length_drop, List.length_cons, List.length_nil] at this
        omega
      exact ⟨hl, hall, hrest⟩
  · rintro (⟨hlen, hall⟩ | ⟨hlen, hall, hrest⟩)
    · refine ⟨by omega, ?_, Or.inl ?_⟩
      · rw [List.take_of_length_le (by omega)]
        exact hall
      · exact List.drop_eq_nil_of_le (by omega)
    · exact ⟨by omega, hall, Or.inr hrest⟩

/-- C5 counterexample: the source's Birthday parser accepts "1.01.2000"
    (one-digit day), which is not in the claimed strict two-digit-day
    DD.MM.YYYY format, so acceptance is not equivalent to parsing under
    that strict format. -/
theorem c5_counterexample_one_digit_day :
    birthdayParse "1.01.2000".data = some ⟨2000, 1, 1⟩ ∧
      specStrictDDMMYYYY "1.01.2000".data = false := by
  exact ⟨by decide, by decide⟩

/-- C5 (amended): Birthday construction succeeds on every strict
    DD.MM.YYYY real calendar date (and then renders back to exactly the
    input), but also on 1-digit day or month forms; every successful
    parse yields a valid calendar date whose rendering (zero-padded
    DD.MM.YYYY) reparses to the same date, and the spec's rejection
    examples 31.02.2020 and 00.01.2000 are indeed rejected. -/
theorem c5_birthday_validation :
    (∀ s : List Char, specStrictDDMMYYYY s = true →
        ∃ d : Date, birthdayParse s = some d ∧ renderDate d = s) ∧
    (∀ (s : List Char) (d : Date), birthdayParse s = some d →
        validDate d = true ∧ birthdayParse (renderDate d) = some d) ∧
    birthdayParse "31.02.2020".data = none ∧
    birthdayParse "00.01.2000".data = none := by
  refine ⟨?_, ?_, by decide, by decide⟩
  · intro s h
    rcases s with _ | ⟨c1, _ | ⟨c2, _ | ⟨c3, _ | ⟨c4, _ | ⟨c5, _ | ⟨c6,
      _ | ⟨c7, _ | ⟨c8, _ | ⟨c9, _ | ⟨c10, _ | ⟨c11, rest⟩⟩⟩⟩⟩⟩⟩⟩⟩⟩⟩ <;>
      try (exfalso; simp only [specStrictDDMMYYYY] at h; exact absurd h (by decide))
    have hdots : c3 = '.' ∧ c6 = '.' := by
      simp only [specStrictDDMMYYYY, Bool.and_eq_true, decide_eq_true_eq] at h
      exact ⟨h.1.1.1.1.1.1.1.1.1.1, h.1.1.1.1.1.1.1.1.1.2⟩
    obtain ⟨rfl, rfl⟩ := hdots
    exact strict_parse c1 c2 c4 c5 c7 c8 c9 c10 h
  · intro s d h
    have hv : validDate d = true := by
      rw [birthdayParse] at h
      split at h
      · split at h
        · obtain ⟨h1, -⟩ := mkDateChecked_some _ _ _ _ h
          exact h1
        · cases h
      · cases h
    exact ⟨hv, birthdayParse_renderDate d hv⟩

/-- C5 witness: instantiating the amended theorem at a concrete parse. -/
theorem c5_witness :
    validDate ⟨1990, 6, 15⟩ = true ∧
      birthdayParse (renderDate ⟨1990, 6, 15⟩) = some ⟨1990, 6, 15⟩ :=
  c5_birthday_validation.2.1 "15.06.1990".data ⟨1990, 6, 15⟩ (by decide)

/-- Python `Record.edit_phone(old_phone, new_phone)`.  The source loop
    replaces the entry at EVERY index whose value equals `old_phone` with
    a freshly constructed (hence re-validated) `Phone(new_phone)`; the
    construction raises `ValueError` (`none` here) at the first matching
    index when `new_phone` is invalid, leaving the list unchanged.
    Phone entries are modelled by their string values. -/
def edit_phone (phones : List String) (old_phone new_phone : String) :
    Option (List String) :=
  match phones with
  | [] => some []
  | p :: rest =>
    if p = old_phone then
      if phoneValidate new_phone.data then
        (edit_phone rest old_phone new_phone).map (new_phone :: ·)
      else none
    else (edit_phone rest old_phone new_phone).map (p :: ·)

/-- Python `Record.remove_phone(phone)`.  The source iterates over the
    live list while calling `list.remove` on each match; removing the
    element at the current index shifts the rest left, so the element
    immediately after a removed match is never examined (`remove(p)`
    deletes exactly the current element because every `Phone` object in
    the list is a distinct object and `==` on them is identity). -/
def remove_phone (phones : List String) (phone : String) : List String :=
  match phones with
  | [] => []
  | p :: rest =>
    if p = phone then
      match rest with
      | [] => []
      | q :: rest2 => q :: remove_phone rest2 phone
    else p :: remove_phone rest phone

/-- C6 counterexample: with two equal entries, `edit_phone` replaces both
    of them, not only the first one as claimed. -/
theorem c6_counterexample_replaces_all :
    edit_phone ["1111111111", "1111111111"] "1111111111" "2222222222" =
      some ["2222222222", "2222222222"] ∧
    edit_phone ["1111111111", "1111111111"] "1111111111" "2222222222" ≠
      some ["2222222222", "1111111111"] := by
  exact ⟨by decide, by decide⟩

/-- Replacing occurrences of a value not present in a list changes
    nothing. -/
lemma map_replace_not_mem (l : List String) (o n : String) (h : o ∉ l) :
    l.map (fun p => if p = o then n else p) = l := by
  induction l with
  | nil => rfl
  | cons q qs ih =>
    have hq : ¬ q = o := fun hh => h (hh ▸ List.mem_cons_self q qs)
    rw [List.map_cons, if_neg hq, ih (fun hh => h (List.mem_cons_of_mem _ hh))]

/-- C6 (amended): `edit_phone` replaces EVERY entry equal to `oldValue`
    (preserving positions and all other entries) when the new value
    passes phone validation; it is a no-op without error when no entry
    matches; and it raises a validation error, leaving the list
    unchanged, when some entry matches but the new value is invalid. -/
theorem c6_edit_phone (phones : List String) (o n : String) :
    (o ∉ phones → edit_phone phones o n = some phones) ∧
    (o ∈ phones → phoneValidate n.data = true →
      edit_phone phones o n =
        some (phones.map (fun p => if p = o then n else p))) ∧
    (o ∈ phones → phoneValidate n.data = false →
      edit_phone phones o n = none) := by
  induction phones with
  | nil => exact ⟨fun _ => rfl, fun h => absurd h (List.not_mem_nil o),
      fun h => absurd h (List.not_mem_nil o)⟩
  | cons p rest ih =>
    refine ⟨?_, ?_, ?_⟩
    · intro hno
      have hp : ¬ p = o := fun h => hno (h ▸ List.mem_cons_self p rest)
      have hr : o ∉ rest := fun h => hno (List.mem_cons_of_mem _ h)
      rw [edit_phone, if_neg hp, ih.1 hr]
      rfl
    · intro hmem hval
      by_cases hp : p = o
      · rw [edit_phone, if_pos hp, if_pos hval]
        by_cases hr : o ∈ rest
        · rw [ih.2.1 hr hval, List.map_cons, if_pos hp]
          rfl
        · rw [ih.1 hr, List.map_cons, if_pos hp,
            map_replace_not_mem rest o n hr]
          rfl
      · have hr : o ∈ rest := by
          rcases List.mem_cons.mp hmem with h | h
          · exact absurd h.symm hp
          · exact h
        rw [edit_phone, if_neg hp, ih.2.1 hr hval, List.map_cons, if_neg hp]
        rfl
    · intro hmem hval
      by_cases hp : p = o
      · rw [edit_phone, if_pos hp, if_neg]
        rw [hval]
        exact Bool.false_ne_true
      · have hr : o ∈ rest := by
          rcases List.mem_cons.mp hmem with h | h
          · exact absurd h.symm hp
          · exact h
        rw [edit_phone, if_neg hp, ih.2.2 hr hval]
        rfl

/-- C6 witness: instantiating the amended theorem at a concrete record. -/
theorem c6_witness :
    edit_phone ["1111111111", "3333333333", "1111111111"] "1111111111"
        "2222222222" =
      some (["1111111111", "3333333333", "1111111111"].map
        (fun p => if p = "1111111111" then "2222222222" else p)) :=
  (c6_edit_phone ["1111111111", "3333333333", "1111111111"] "1111111111"
    "2222222222").2.1 (by decide) (by decide)

/-- C7 counterexample: with a later non-adjacent duplicate, the source's
    remove loop deletes BOTH matching entries, not only the first one as
    claimed. -/
theorem c7_counterexample_nonadjacent_duplicate :
    remove_phone ["1111111111", "2222222222", "1111111111"] "1111111111" =
      ["2222222222"] ∧
    remove_phone ["1111111111", "2222222222", "1111111111"] "1111111111" ≠
      ["2222222222", "1111111111"] := by
  exact ⟨by decide, by decide⟩

/-- C7 (amended): when no entry matches, `remove_phone` is a no-op and no
    error is raised; otherwise the FIRST matching entry is removed and the
    element immediately after it is kept without being examined, after
    which the same scan continues — so the second of two adjacent
    duplicates survives, while later non-adjacent duplicates are also
    removed. -/
theorem c7_remove_phone (phones : List String) (v : String) :
    (v ∉ phones → remove_phone phones v = phones) ∧
    (∀ pre, phones = pre ++ [v] → v ∉ pre →
      remove_phone phones v = pre) ∧
    (∀ pre q post, phones = pre ++ v :: q :: post → v ∉ pre →
      remove_phone phones v = pre ++ q :: remove_phone post v) := by
  refine ⟨?_, ?_, ?_⟩
  · induction phones with
    | nil => intro _; rfl
    | cons p rest ih =>
      intro hno
      have hp : ¬ p = v := fun h => hno (h ▸ List.mem_cons_self p rest)
      rw [remove_phone.eq_def]
      simp only [if_neg hp]
      rw [ih (fun h => hno (List.mem_cons_of_mem _ h))]
  · intro pre hco hpre
    subst hco
    induction pre with
    | nil =>
      rw [List.nil_append, remove_phone.eq_def]
      simp
    | cons q pre' ih =>
      have hq : ¬ q = v := fun h => hpre (h ▸ List.mem_cons_self q pre')
      rw [List.cons_append, remove_phone.eq_def]
      simp only [if_neg hq]
      rw [ih (fun h => hpre (List.mem_cons_of_mem _ h))]
  · intro pre q post hco hpre
    subst hco
    induction pre with
    | nil =>
      rw [List.nil_append, remove_phone.eq_def]
      simp
    | cons a pre' ih =>
      have ha : ¬ a = v := fun h => hpre (h ▸ List.mem_cons_self a pre')
      rw [List.cons_append, remove_phone.eq_def]
      simp only [if_neg ha]
      rw [ih (fun h => hpre (List.mem_cons_of_mem _ h)), List.cons_append]

/-- C7 witness: instantiating the amended theorem where an adjacent
    duplicate survives the scan. -/
theorem c7_witness :
    remove_phone ["3333333333", "1111111111", "1111111111", "2222222222"]
        "1111111111" =
      ["3333333333"] ++ "1111111111" :: remove_phone ["2222222222"]
        "1111111111" :=
  (c7_remove_phone
    ["3333333333", "1111111111", "1111111111", "2222222222"]
    "1111111111").2.2 ["3333333333"] "1111111111" ["2222222222"]
    (by decide) (by decide)

/-- Model of the Python `Record`: its name, phone values in list order
    (each was validated on construction) and the optional birthday date
    (`none` models the absent `birthday` attribute). -/
structure PRecord where
  name : String
  phones : List String
  birthday : Option Date
deriving DecidableEq

/-- The `AddressBook` data dict, as an insertion-ordered association list
    with unique keys (Python dict semantics). -/
def Book := List (String × PRecord)

/-- Python dict assignment `data[k] = r`: an existing key keeps its
    position and gets the new value, a new key is appended. -/
def dictInsert : List (String × PRecord) → String → PRecord →
    List (String × PRecord)
  | [], k, r => [(k, r)]
  | (k0, r0) :: rest, k, r =>
    if k0 = k then (k0, r) :: rest else (k0, r0) :: dictInsert rest k r

/-- Python `data.get(name)` / `AddressBook.find`. -/
def lookupBook (book : List (String × PRecord)) (k : String) :
    Option PRecord :=
  (book.find? (fun p => p.1 = k)).map (fun p => p.2)

/-- `AddressBook.save_to_disk`: the JSON object written to disk, an
    ordered mapping from each contact name to its phone-value list and
    its rendered birthday (`none` = JSON null). -/
def saveBook (book : List (String × PRecord)) :
    List (String × (List String × Option (List Char))) :=
  book.map (fun p => (p.1, (p.2.phones, p.2.birthday.map renderDate)))

/-- The `record.add_phone(phone)` loop of `load_from_disk`: each stored
    phone is re-validated by the `Phone` constructor; the first invalid
    one raises (`none`). -/
def loadPhones : List String → Option (List String)
  | [] => some []
  | p :: rest =>
    if phoneValidate p.data then (loadPhones rest).map (p :: ·) else none

/-- Rebuilding one `Record` in `load_from_disk`: `Record(name)` then the
    `add_phone` loop, then `add_birthday` when the stored value is truthy
    (Python `if data['birthday']:` skips both null and the empty
    string). -/
def loadRecord (name : String) (phones : List String)
    (bd : Option (List Char)) : Option PRecord :=
  match loadPhones phones with
  | none => none
  | some ps =>
    match bd with
    | none => some ⟨name, ps, none⟩
    | some s =>
      if s = [] then some ⟨name, ps, none⟩
      else
        match birthdayParse s with
        | none => none
        | some d => some ⟨name, ps, some d⟩

/-- `AddressBook.load_from_disk`: rebuild each stored record in file
    order and assign it into the current data dict; a `ValueError` from
    `Phone`/`Birthday` propagates (`none`). -/
def loadBook :
    List (String × (List String × Option (List Char))) →
    List (String × PRecord) → Option (List (String × PRecord))
  | [], book => some book
  | (name, (phones, bd)) :: rest, book =>
    match loadRecord name phones bd with
    | none => none
    | some r => loadBook rest (dictInsert book name r)

/-- A record as actually constructed by the bot: every phone passed the
    `Phone` validation and the birthday, when present, is a valid
    calendar date (which `Birthday` parsing guarantees). -/
def validRecord (r : PRecord) : Bool :=
  r.phones.all (fun p => phoneValidate p.data) &&
    (match r.birthday with
     | none => true
     | some d => validDate d)

lemma loadPhones_of_valid (phones : List String)
    (h : phones.all (fun p => phoneValidate p.data) = true) :
    loadPhones phones = some phones := by
  induction phones with
  | nil => rfl
  | cons p rest ih =>
    rw [List.all_cons, Bool.and_eq_true] at h
    rw [loadPhones, if_pos h.1, ih h.2]
    rfl

lemma renderDate_ne_nil (d : Date) : renderDate d ≠ [] := by
  rw [renderDate, pad2]
  exact List.cons_ne_nil _ _

lemma loadRecord_of_valid (r : PRecord) (k : String) (hn : r.name = k)
    (h : validRecord r = true) :
    loadRecord k r.phones (r.birthday.map renderDate) = some r := by
  subst hn
  obtain ⟨nm, ph, bd⟩ := r
  rw [validRecord, Bool.and_eq_true] at h
  cases bd with
  | none =>
    simp only [loadRecord, loadPhones_of_valid _ h.1]
    rfl
  | some d =>
    have hd : validDate d = true := h.2
    simp only [loadRecord, loadPhones_of_valid _ h.1]
    show (if renderDate d = [] then some (PRecord.mk nm ph none)
      else match birthdayParse (renderDate d) with
        | none => none
        | some d2 => some (PRecord.mk nm ph (some d2))) =
      some (PRecord.mk nm ph (some d))
    rw [if_neg (renderDate_ne_nil d), birthdayParse_renderDate d hd]

lemma dictInsert_not_mem (book : List (String × PRecord)) (k : String)
    (r : PRecord) (h : k ∉ book.map Prod.fst) :
    dictInsert book k r = book ++ [(k, r)] := by
  induction book with
  | nil => rfl
  | cons p rest ih =>
    have hk : ¬ p.1 = k := fun hh => h (by
      rw [List.map_cons, hh]
      exact List.mem_cons_self _ _)
    rw [show (p :: rest : List (String × PRecord)) = (p.1, p.2) :: rest from rfl,
      dictInsert, if_neg hk,
      ih (fun hh => h (by rw [List.map_cons]; exact List.mem_cons_of_mem _ hh))]
    rfl

lemma loadBook_saveBook (book : List (String × PRecord)) :
    ∀ acc : List (String × PRecord),
    (∀ p ∈ book, validRecord p.2 = true) →
    (∀ p ∈ book, p.2.name = p.1) →
    (book.map Prod.fst).Nodup →
    (∀ p ∈ book, p.1 ∉ acc.map Prod.fst) →
    loadBook (saveBook book) acc = some (acc ++ book) := by
  induction book with
  | nil =>
    intro acc _ _ _ _
    simp [saveBook, loadBook]
  | cons p rest ih =>
    intro acc hvalid hnames hnodup hdisj
    obtain ⟨k, r⟩ := p
    have hset : saveBook ((k, r) :: rest) =
        (k, (r.phones, r.birthday.map renderDate)) :: saveBook rest := rfl
    rw [hset, loadBook,
      loadRecord_of_valid r k (hnames _ (List.mem_cons_self _ _))
        (hvalid _ (List.mem_cons_self _ _))]
    show loadBook (saveBook rest) (dictInsert acc k r) =
      some (acc ++ (k, r) :: rest)
    rw [dictInsert_not_mem acc k r (hdisj _ (List.mem_cons_self _ _))]
    rw [List.map_cons] at hnodup
    have hk_not : k ∉ rest.map Prod.fst := (List.nodup_cons.mp hnodup).1
    have hdisj2 : ∀ q ∈ rest, q.1 ∉ (acc ++ [(k, r)]).map Prod.fst := by
      intro q hq
      rw [List.map_append]
      intro hmem
      rcases List.mem_append.mp hmem with hmem | hmem
      · exact hdisj q (List.mem_cons_of_mem _ hq) hmem
      · simp only [List.map_cons, List.map_nil, List.mem_singleton] at hmem
        exact hk_not (hmem ▸ List.mem_map_of_mem Prod.fst hq)
    rw [ih (acc ++ [(k, r)])
      (fun q hq => hvalid q (List.mem_cons_of_mem _ hq))
      (fun q hq => hnames q (List.mem_cons_of_mem _ hq))
      (List.nodup_cons.mp hnodup).2 hdisj2]
    simp

/-- C8: saving an address book of valid records (every phone passed the
    Phone validation, every birthday is a valid calendar date, keys are
    the record names and are unique) and loading the produced object into
    a fresh book yields exactly the same book: same names in the same
    order, same phone lists, same optional birthdays. -/
theorem c8_save_load_roundtrip (book : List (String × PRecord))
    (hvalid : ∀ p ∈ book, validRecord p.2 = true)
    (hnames : ∀ p ∈ book, p.2.name = p.1)
    (hnodup : (book.map Prod.fst).Nodup) :
    loadBook (saveBook book) [] = some book := by
  have h := loadBook_saveBook book [] hvalid hnames hnodup (by simp)
  simpa using h

/-- C8 witness: a concrete two-record book (one with a birthday, one
    without) survives the save/load round trip unchanged. -/
theorem c8_witness :
    loadBook (saveBook
      [("Ann", ⟨"Ann", ["1234567890"], some ⟨1990, 6, 15⟩⟩),
       ("Bob", ⟨"Bob", ["0987654321", "1112223334"], none⟩)]) [] =
    some [("Ann", ⟨"Ann", ["1234567890"], some ⟨1990, 6, 15⟩⟩),
          ("Bob", ⟨"Bob", ["0987654321", "1112223334"], none⟩)] :=
  c8_save_load_roundtrip _ (by decide) (by decide) (by decide)

/-- The exception kinds a command handler can raise: `ValueError` (bad
    phone or birthday format, and also the handlers' own arity checks),
    `IndexError` (e.g. `record.phones[0]` on an empty list), `KeyError`
    (contact not found), and any other `Exception` with its message. -/
inductive PyErr where
  | valueError (msg : String)
  | indexError
  | keyError
  | other (msg : String)
deriving DecidableEq

/-- The `input_error` decorator: turns a handler outcome into the string
    the user sees.  `except (ValueError, IndexError)` yields the generic
    prompt, `except KeyError` the not-found message, and the final
    `except Exception` embeds the error text. -/
def input_error : Except PyErr String → String
  | .ok s => s
  | .error (.valueError _) => "Give me name and phone please."
  | .error .indexError => "Give me name and phone please."
  | .error .keyError => "Contact not found."
  | .error (.other m) => "Unexpected error: " ++ m

/-- C9: every command handler, whatever its outcome on whatever argument
    list, is converted by the `input_error` wrapper into a plain string:
    a normal result is returned as is, arity and validation failures
    (ValueError/IndexError) become the generic "give me name and phone"
    message, a missing contact (KeyError) becomes "Contact not found.",
    and any other failure becomes a message containing its text; no error
    propagates out of the wrapper. -/
theorem c9_input_error_total (r : Except PyErr String) :
    (∀ s, r = .ok s → input_error r = s) ∧
    (∀ m, r = .error (.valueError m) →
      input_error r = "Give me name and phone please.") ∧
    (r = .error .indexError →
      input_error r = "Give me name and phone please.") ∧
    (r = .error .keyError → input_error r = "Contact not found.") ∧
    (∀ m, r = .error (.other m) →
      input_error r = "Unexpected error: " ++ m) := by
  refine ⟨?_, ?_, ?_, ?_, ?_⟩ <;> intros <;> subst_vars <;> rfl

/-- C9 witness: the wrapper at each concrete outcome kind. -/
theorem c9_witness :
    input_error (.error .keyError) = "Contact not found." ∧
    input_error (.error (.valueError "Phone number must have 10 digits.")) =
      "Give me name and phone please." ∧
    input_error (.ok "How can I help you?") = "How can I help you?" :=
  ⟨(c9_input_error_total (.error .keyError)).2.2.2.1 rfl,
   (c9_input_error_total
      (.error (.valueError "Phone number must have 10 digits."))).2.1 _ rfl,
   (c9_input_error_total (.ok "How can I help you?")).1 _ rfl⟩

/-- The `add` command handler.  It raises `ValueError` when fewer than
    two arguments are given; otherwise it fetches or CREATES the record
    for the name (the created record is inserted into the book before the
    phone is validated), then `record.add_phone(phone)` validates the
    phone and appends it, raising `ValueError` on a bad phone.  The
    handler returns the raw outcome together with the book state after
    the call (mutations before an exception persist). -/
def addHandler (args : List String) (book : List (String × PRecord)) :
    Except PyErr String × List (String × PRecord) :=
  match args with
  | username :: phone :: _ =>
    let book1 :=
      match lookupBook book username with
      | none => dictInsert book username ⟨username, [], none⟩
      | some _ => book
    if phoneValidate phone.data then
      (.ok ("Added " ++ username ++ " with phone number " ++ phone),
        book1.map (fun q =>
          if q.1 = username then
            (q.1, ⟨q.2.name, q.2.phones ++ [phone], q.2.birthday⟩)
          else q))
    else (.error (.valueError "Phone number must have 10 digits."), book1)
  | _ => (.error (.valueError ""), book)

lemma lookupBook_dictInsert (book : List (String × PRecord)) (k : String)
    (r : PRecord) : lookupBook (dictInsert book k r) k = some r := by
  induction book with
  | nil => simp [dictInsert, lookupBook, List.find?]
  | cons p rest ih =>
    obtain ⟨k0, r0⟩ := p
    by_cases hk : k0 = k
    · rw [dictInsert, if_pos hk, lookupBook, List.find?]
      simp [hk]
    · rw [dictInsert, if_neg hk, lookupBook, List.find?]
      rw [decide_eq_false hk]
      exact ih

/-- C10: an `add` invocation for a name not in the book with a phone that
    fails validation answers with the generic validation message, yet
    leaves behind a freshly created record for that name with an empty
    phone list: the insertion is not rolled back. -/
theorem c10_add_not_rolled_back (username phone : String)
    (rest : List String) (book : List (String × PRecord))
    (habsent : lookupBook book username = none)
    (hbad : phoneValidate phone.data = false) :
    input_error (addHandler (username :: phone :: rest) book).1 =
      "Give me name and phone please." ∧
    lookupBook (addHandler (username :: phone :: rest) book).2 username =
      some ⟨username, [], none⟩ := by
  rw [addHandler]
  simp only [habsent]
  rw [if_neg (by rw [hbad]; exact Bool.false_ne_true)]
  exact ⟨rfl, lookupBook_dictInsert book username ⟨username, [], none⟩⟩

/-- C10 witness: concrete failed `add` leaving an empty record behind. -/
theorem c10_witness :
    input_error (addHandler ["Ann", "123"] []).1 =
      "Give me name and phone please." ∧
    lookupBook (addHandler ["Ann", "123"] []).2 "Ann" =
      some ⟨"Ann", [], none⟩ :=
  c10_add_not_rolled_back "Ann" "123" [] [] (by decide) (by decide)

/-- Lines 91 to 94 of `get_birthdays_per_week` for one user: this year's
    occurrence of the birthday, replaced by next year's when it has
    already passed; `none` models the `ValueError` of `date.replace`. -/
def resolveOccurrence (today bday : Date) : Option Date :=
  match replaceYear bday today.year with
  | none => none
  | some birthday_this_year =>
    if dateLt birthday_this_year today then
      replaceYear birthday_this_year (today.year + 1)
    else some birthday_this_year

/-- The body of the `for user in users` loop of `get_birthdays_per_week`:
    `none` models the iteration raising (Feb 29 projected onto a non-leap
    year); `some none` means the contact does not qualify
    (`delta_days >= 7`); `some (some wd)` means the contact is appended
    to bucket `wd` (weekend occurrences are rebucketed to Monday). -/
def processUser (today bday : Date) : Option (Option String) :=
  match resolveOccurrence today bday with
  | none => none
  | some occ =>
    let delta : Int := (toOrdinal occ : Int) - (toOrdinal today : Int)
    if delta < 7 then
      let weekday := weekdayName occ
      some (some (if weekday = "Saturday" ∨ weekday = "Sunday" then "Monday"
        else weekday))
    else some none

/-- `birthdays[weekday].append(name)` on the `defaultdict(list)`,
    modelled on an insertion-ordered association list with unique keys. -/
def bucketsAdd (acc : List (String × List String)) (wd name : String) :
    List (String × List String) :=
  match acc with
  | [] => [(wd, [name])]
  | (k, l) :: rest =>
    if k = wd then (k, l ++ [name]) :: rest
    else (k, l) :: bucketsAdd rest wd name

/-- The user loop of `get_birthdays_per_week` over the remaining users,
    carrying the buckets accumulated so far. -/
def gbpwGo (today : Date) :
    List (String × Date) → List (String × List String) →
    Except Unit (List (String × List String))
  | [], acc => .ok acc
  | (name, bday) :: rest, acc =>
    match processUser today bday with
    | none => .error ()
    | some none => gbpwGo today rest acc
    | some (some wd) => gbpwGo today rest (bucketsAdd acc wd name)

/-- `get_birthdays_per_week` on the per-user list, with `today` made an
    explicit parameter (the source reads `datetime.today()`). -/
def getBirthdaysPerWeek (today : Date) (users : List (String × Date)) :
    Except Unit (List (String × List String)) :=
  gbpwGo today users []

/-- Line 84: the users list, i.e. the records having a set birthday, in
    book order. -/
def usersOf (book : List (String × PRecord)) : List (String × Date) :=
  book.filterMap (fun p => p.2.birthday.map (fun b => (p.1, b)))

/-- `AddressBook.get_birthdays_per_week` on a whole book. -/
def getBirthdaysPerWeekBook (today : Date)
    (book : List (String × PRecord)) :
    Except Unit (List (String × List String)) :=
  getBirthdaysPerWeek today (usersOf book)

/-- Name `n` appears under bucket key `wd` in the result `r`. -/
def listed (wd n : String) (r : List (String × List String)) : Prop :=
  ∃ l, (wd, l) ∈ r ∧ n ∈ l

lemma listed_nil (wd n : String) : ¬ listed wd n [] := by
  rintro ⟨l, hmem, -⟩
  exact List.not_mem_nil _ hmem

lemma listed_cons (wd n k : String) (l : List String)
    (rest : List (String × List String)) :
    listed wd n ((k, l) :: rest) ↔ (wd = k ∧ n ∈ l) ∨ listed wd n rest := by
  constructor
  · rintro ⟨l2, hmem, hn⟩
    rcases List.mem_cons.mp hmem with h | h
    · cases h
      exact Or.inl ⟨rfl, hn⟩
    · exact Or.inr ⟨l2, h, hn⟩
  · rintro (⟨rfl, hn⟩ | ⟨l2, hmem, hn⟩)
    · exact ⟨l, List.mem_cons_self _ _, hn⟩
    · exact ⟨l2, List.mem_cons_of_mem _ hmem, hn⟩

lemma listed_bucketsAdd (acc : List (String × List String))
    (wd0 m wd n : String) :
    listed wd n (bucketsAdd acc wd0 m) ↔
      listed wd n acc ∨ (wd = wd0 ∧ n = m) := by
  induction acc with
  | nil =>
    rw [bucketsAdd, listed_cons]
    simp only [List.mem_singleton]
    constructor
    · rintro (⟨rfl, rfl⟩ | h)
      · exact Or.inr ⟨rfl, rfl⟩
      · exact absurd h (listed_nil _ _)
    · rintro (h | ⟨rfl, rfl⟩)
      · exact absurd h (listed_nil _ _)
      · exact Or.inl ⟨rfl, rfl⟩
  | cons p rest ih =>
    obtain ⟨k, l⟩ := p
    by_cases hk : k = wd0
    · rw [bucketsAdd, if_pos hk, listed_cons, listed_cons]
      subst hk
      simp only [List.mem_append, List.mem_singleton]
      constructor
      · rintro (⟨rfl, hn | rfl⟩ | h)
        · exact Or.inl (Or.inl ⟨rfl, hn⟩)
        · exact Or.inr ⟨rfl, rfl⟩
        · exact Or.inl (Or.inr h)
      · rintro ((⟨rfl, hn⟩ | h) | ⟨rfl, rfl⟩)
        · exact Or.inl ⟨rfl, Or.inl hn⟩
        · exact Or.inr h
        · exact Or.inl ⟨rfl, Or.inr rfl⟩
    · rw [bucketsAdd, if_neg hk, listed_cons, listed_cons, ih]
      tauto

lemma gbpwGo_listed (today : Date) (users : List (String × Date)) :
    ∀ acc r, gbpwGo today users acc = .ok r →
    ∀ wd n, listed wd n r ↔ listed wd n acc ∨
      ∃ u ∈ users, u.1 = n ∧ processUser today u.2 = some (some wd) := by
  induction users with
  | nil =>
    intro acc r h wd n
    injection h with h
    subst h
    simp
  | cons u rest ih =>
    intro acc r h wd n
    obtain ⟨name, bday⟩ := u
    rw [gbpwGo] at h
    cases hp : processUser today bday with
    | none =>
      rw [hp] at h
      cases h
    | some o =>
      cases o with
      | none =>
        rw [hp] at h
        replace h : gbpwGo today rest acc = Except.ok r := h
        rw [ih acc r h wd n]
        constructor
        · rintro (h1 | ⟨v, hv, h1, h2⟩)
          · exact Or.inl h1
          · exact Or.inr ⟨v, List.mem_cons_of_mem _ hv, h1, h2⟩
        · rintro (h1 | ⟨v, hv, h1, h2⟩)
          · exact Or.inl h1
          · rcases List.mem_cons.mp hv with he | he
            · exfalso
              rw [he] at h2
              rw [hp] at h2
              cases h2
            · exact Or.inr ⟨v, he, h1, h2⟩
      | some wd0 =>
        rw [hp] at h
        replace h : gbpwGo today rest (bucketsAdd acc wd0 name) =
          Except.ok r := h
        rw [ih _ r h wd n, listed_bucketsAdd]
        constructor
        · rintro ((h1 | ⟨rfl, rfl⟩) | ⟨v, hv, h1, h2⟩)
          · exact Or.inl h1
          · exact Or.inr ⟨(n, bday), List.mem_cons_self _ _, rfl, hp⟩
          · exact Or.inr ⟨v, List.mem_cons_of_mem _ hv, h1, h2⟩
        · rintro (h1 | ⟨v, hv, h1, h2⟩)
          · exact Or.inl (Or.inl h1)
          · rcases List.mem_cons.mp hv with he | he
            · subst he
              simp only at h1
              rw [hp] at h2
              injection h2 with h2
              injection h2 with h2
              exact Or.inl (Or.inr ⟨h2.symm, h1.symm⟩)
            · exact Or.inr ⟨v, he, h1, h2⟩

lemma gbpwGo_error (today : Date) (users : List (String × Date)) :
    ∀ acc, (∃ u ∈ users, processUser today u.2 = none) →
      gbpwGo today users acc = .error () := by
  induction users with
  | nil =>
    rintro acc ⟨u, hu, -⟩
    exact absurd hu (List.not_mem_nil u)
  | cons v rest ih =>
    rintro acc ⟨u, hu, hnone⟩
    obtain ⟨name, bday⟩ := v
    rw [gbpwGo]
    cases hp : processUser today bday with
    | none => rfl
    | some o =>
      have hu' : u ∈ rest := by
        rcases List.mem_cons.mp hu with h | h
        · exfalso
          rw [h] at hnone
          simp only at hnone
          rw [hnone] at hp
          cases hp
        · exact h
      cases o with
      | none => exact ih acc ⟨u, hu', hnone⟩
      | some wd => exact ih (bucketsAdd acc wd name) ⟨u, hu', hnone⟩

lemma mem_usersOf (book : List (String × PRecord)) (name : String)
    (rec : PRecord) (bday : Date) (h : (name, rec) ∈ book)
    (hb : rec.birthday = some bday) : (name, bday) ∈ usersOf book :=
  List.mem_filterMap.mpr ⟨(name, rec), h, by rw [hb]; rfl⟩

lemma usersOf_keys_sublist (book : List (String × PRecord)) :
    List.Sublist ((usersOf book).map Prod.fst) (book.map Prod.fst) := by
  induction book with
  | nil => simp [usersOf]
  | cons p rest ih =>
    obtain ⟨k, r⟩ := p
    rw [usersOf, List.filterMap_cons]
    cases hb : r.birthday with
    | none =>
      simp only [Option.map_none]
      exact ih.trans (List.sublist_cons_self _ _)
    | some b =>
      simp only [Option.map_some, List.map_cons]
      exact List.Sublist.cons₂ _ ih

lemma key_unique (users : List (String × Date))
    (h : (users.map Prod.fst).Nodup) (n : String) (b1 b2 : Date)
    (h1 : (n, b1) ∈ users) (h2 : (n, b2) ∈ users) : b1 = b2 := by
  induction users with
  | nil => exact absurd h1 (List.not_mem_nil _)
  | cons u rest ih =>
    obtain ⟨k, v⟩ := u
    rw [List.map_cons, List.nodup_cons] at h
    rcases List.mem_cons.mp h1 with e1 | e1 <;>
      rcases List.mem_cons.mp h2 with e2 | e2
    · injection e1 with e1a e1b
      injection e2 with e2a e2b
      rw [e1b, e2b]
    · exfalso
      injection e1 with e1a e1b
      apply h.1
      rw [← e1a]
      have hm := List.mem_map_of_mem Prod.fst e2
      exact hm
    · exfalso
      injection e2 with e2a e2b
      apply h.1
      rw [← e2a]
      have hm := List.mem_map_of_mem Prod.fst e1
      exact hm
    · exact ih h.2 e1 e2

lemma processUser_eq (today bday occ : Date)
    (h : resolveOccurrence today bday = some occ) :
    processUser today bday =
      some (if (toOrdinal occ : Int) - (toOrdinal today : Int) < 7 then
        some (if weekdayName occ = "Saturday" ∨ weekdayName occ = "Sunday"
          then "Monday" else weekdayName occ)
        else none) := by
  rw [processUser, h]
  show (if (toOrdinal occ : Int) - (toOrdinal today : Int) < 7 then
      some (some (if weekdayName occ = "Saturday" ∨ weekdayName occ = "Sunday"
        then "Monday" else weekdayName occ))
      else some none) = _
  by_cases hlt : (toOrdinal occ : Int) - (toOrdinal today : Int) < 7
  · rw [if_pos hlt, if_pos hlt]
  · rw [if_neg hlt, if_neg hlt]

/-- C1: for every record with a set birthday, the weekly query computes
    the occurrence as the birthday with its year replaced by today's
    year, replaces the year by today's year + 1 when that occurrence is
    strictly before today, and lists the contact in the result if and
    only if the whole-day difference between the occurrence and today is
    strictly below 7 (today itself giving difference 0). -/
theorem c1_weekly_inclusion (today : Date) (book : List (String × PRecord))
    (name : String) (rec : PRecord) (bday : Date)
    (hrec : (name, rec) ∈ book) (hb : rec.birthday = some bday)
    (hnodup : (book.map Prod.fst).Nodup)
    (r : List (String × List String))
    (hok : getBirthdaysPerWeekBook today book = .ok r)
    (occ : Date) (hocc : resolveOccurrence today bday = some occ) :
    (∃ bty, replaceYear bday today.year = some bty ∧
      ((dateLt bty today = true ∧
          replaceYear bty (today.year + 1) = some occ) ∨
        (dateLt bty today = false ∧ occ = bty))) ∧
    ((∃ wd, listed wd name r) ↔
      (toOrdinal occ : Int) - (toOrdinal today : Int) < 7) := by
  have hmemu : (name, bday) ∈ usersOf book :=
    mem_usersOf book name rec bday hrec hb
  have hnodupu : ((usersOf book).map Prod.fst).Nodup :=
    List.Nodup.sublist (usersOf_keys_sublist book) hnodup
  rw [getBirthdaysPerWeekBook, getBirthdaysPerWeek] at hok
  have hiff := gbpwGo_listed today (usersOf book) [] r hok
  have hproc := processUser_eq today bday occ hocc
  constructor
  · cases hre : replaceYear bday today.year with
    | none =>
      rw [resolveOccurrence, hre] at hocc
      cases hocc
    | some bty =>
      rw [resolveOccurrence, hre] at hocc
      replace hocc : (if dateLt bty today then
          replaceYear bty (today.year + 1) else some bty) = some occ := hocc
      refine ⟨bty, rfl, ?_⟩
      cases hbl : dateLt bty today with
      | true =>
        rw [if_pos hbl] at hocc
        exact Or.inl ⟨rfl, hocc⟩
      | false =>
        rw [if_neg (by rw [hbl]; exact Bool.false_ne_true)] at hocc
        injection hocc with hocc
        exact Or.inr ⟨rfl, hocc.symm⟩
  · constructor
    · rintro ⟨wd, hlwd⟩
      rw [hiff wd name] at hlwd
      rcases hlwd with h | ⟨v, hv, h1, h2⟩
      · exact absurd h (listed_nil _ _)
      · have hveq : v = (name, v.2) := by
          rw [← h1]
        have hub : v.2 = bday :=
          key_unique (usersOf book) hnodupu name v.2 bday
            (hveq ▸ hv) hmemu
        rw [hub, hproc] at h2
        by_cases hlt : (toOrdinal occ : Int) - (toOrdinal today : Int) < 7
        · exact hlt
        · rw [if_neg hlt] at h2
          injection h2 with h2
          cases h2
    · intro hlt
      refine ⟨if weekdayName occ = "Saturday" ∨ weekdayName occ = "Sunday"
        then "Monday" else weekdayName occ, ?_⟩
      rw [hiff _ name]
      exact Or.inr ⟨(name, bday), hmemu, rfl, by rw [hproc, if_pos hlt]⟩

/-- C1 witness: a concrete one-record book (birthday June 12, today
    Monday June 10 2024) instantiating the theorem. -/
theorem c1_witness :
    (∃ wd, listed wd "Ann" [("Wednesday", ["Ann"])]) ↔
      (toOrdinal (⟨2024, 6, 12⟩ : Date) : Int) -
        (toOrdinal (⟨2024, 6, 10⟩ : Date) : Int) < 7 :=
  (c1_weekly_inclusion ⟨2024, 6, 10⟩
    [("Ann", ⟨"Ann", [], some ⟨1990, 6, 12⟩⟩)] "Ann"
    ⟨"Ann", [], some ⟨1990, 6, 12⟩⟩ ⟨1990, 6, 12⟩ (by decide) rfl
    (by decide) [("Wednesday", ["Ann"])] rfl ⟨2024, 6, 12⟩ rfl).2

/-- C2: a qualifying contact whose occurrence falls on a Saturday or
    Sunday is listed under the "Monday" bucket — and only there, never
    under the weekend weekday name — while the qualification test itself
    is still the delta-days test on the unshifted occurrence date. -/
theorem c2_weekend_to_monday (today : Date) (book : List (String × PRecord))
    (name : String) (rec : PRecord) (bday : Date)
    (hrec : (name, rec) ∈ book) (hb : rec.birthday = some bday)
    (hnodup : (book.map Prod.fst).Nodup)
    (r : List (String × List String))
    (hok : getBirthdaysPerWeekBook today book = .ok r)
    (occ : Date) (hocc : resolveOccurrence today bday = some occ)
    (hw : weekdayName occ = "Saturday" ∨ weekdayName occ = "Sunday") :
    (listed "Monday" name r ↔
      (toOrdinal occ : Int) - (toOrdinal today : Int) < 7) ∧
    ¬ listed (weekdayName occ) name r := by
  have hmemu := mem_usersOf book name rec bday hrec hb
  have hnodupu := List.Nodup.sublist (usersOf_keys_sublist book) hnodup
  rw [getBirthdaysPerWeekBook, getBirthdaysPerWeek] at hok
  have hiff := gbpwGo_listed today (usersOf book) [] r hok
  have hproc := processUser_eq today bday occ hocc
  have hshift : (if weekdayName occ = "Saturday" ∨ weekdayName occ = "Sunday"
      then "Monday" else weekdayName occ) = "Monday" := if_pos hw
  constructor
  · constructor
    · intro hl
      rw [hiff "Monday" name] at hl
      rcases hl with h | ⟨v, hv, h1, h2⟩
      · exact absurd h (listed_nil _ _)
      · have hveq : v = (name, v.2) := by rw [← h1]
        have hub : v.2 = bday :=
          key_unique _ hnodupu name v.2 bday (hveq ▸ hv) hmemu
        rw [hub, hproc] at h2
        injection h2 with h2
        by_cases hlt : (toOrdinal occ : Int) - (toOrdinal today : Int) < 7
        · exact hlt
        · rw [if_neg hlt] at h2
          exact Option.noConfusion h2
    · intro hlt
      rw [hiff "Monday" name]
      refine Or.inr ⟨(name, bday), hmemu, rfl, ?_⟩
      rw [hproc, if_pos hlt, hshift]
  · intro hl
    rw [hiff _ name] at hl
    rcases hl with h | ⟨v, hv, h1, h2⟩
    · exact absurd h (listed_nil _ _)
    · have hveq : v = (name, v.2) := by rw [← h1]
      have hub : v.2 = bday :=
        key_unique _ hnodupu name v.2 bday (hveq ▸ hv) hmemu
      rw [hub, hproc] at h2
      injection h2 with h2
      by_cases hlt : (toOrdinal occ : Int) - (toOrdinal today : Int) < 7
      · rw [if_pos hlt] at h2
        injection h2 with h2
        rw [hshift] at h2
        rcases hw with hw | hw <;> rw [← h2] at hw <;>
          exact absurd hw (by decide)
      · rw [if_neg hlt] at h2
        exact Option.noConfusion h2

/-- C2 witness: today Monday 2024-06-10 and a birthday falling on
    Saturday 2024-06-15: the contact is bucketed under "Monday", not
    under "Saturday". -/
theorem c2_witness :
    (listed "Monday" "Ann" [("Monday", ["Ann"])] ↔
      (toOrdinal (⟨2024, 6, 15⟩ : Date) : Int) -
        (toOrdinal (⟨2024, 6, 10⟩ : Date) : Int) < 7) ∧
    ¬ listed (weekdayName ⟨2024, 6, 15⟩) "Ann" [("Monday", ["Ann"])] :=
  c2_weekend_to_monday ⟨2024, 6, 10⟩
    [("Ann", ⟨"Ann", [], some ⟨1990, 6, 15⟩⟩)] "Ann"
    ⟨"Ann", [], some ⟨1990, 6, 15⟩⟩ ⟨1990, 6, 15⟩ (by decide) rfl
    (by decide) [("Monday", ["Ann"])] rfl ⟨2024, 6, 15⟩ rfl (Or.inl rfl)

/-- C3 counterexample: a Feb 29 birthday with today in the non-leap year
    2023 makes the query raise (the `date.replace(year=2023)` call fails),
    so it does NOT complete without failing as claimed. -/
theorem c3_counterexample_feb29 :
    getBirthdaysPerWeekBook ⟨2023, 6, 10⟩
      [("Ann", ⟨"Ann", ["1234567890"], some ⟨2020, 2, 29⟩⟩)] =
      Except.error () := rfl

/-- C3 (amended): for every record whose birthday is February 29 and
    every today in a non-leap year, the year substitution raises a
    `ValueError` and the whole weekly query fails (the error branch IS
    reachable; the contact is never resolved to a valid occurrence). -/
theorem c3_feb29_raises (today : Date) (book : List (String × PRecord))
    (name : String) (rec : PRecord) (bday : Date)
    (hrec : (name, rec) ∈ book) (hb : rec.birthday = some bday)
    (hm : bday.month = 2) (hd : bday.day = 29)
    (hleap : isLeap today.year = false) :
    getBirthdaysPerWeekBook today book = .error () := by
  rw [getBirthdaysPerWeekBook, getBirthdaysPerWeek]
  apply gbpwGo_error
  refine ⟨(name, bday), mem_usersOf book name rec bday hrec hb, ?_⟩
  have h28 : daysInMonth today.year 2 = 28 := by
    rw [daysInMonth, if_pos rfl, hleap]
    rfl
  have hnv : ¬ (validDate ⟨today.year, 2, 29⟩ = true) := by
    intro hvd
    rw [validDate_iff] at hvd
    have h29 : 29 ≤ daysInMonth today.year 2 := hvd.2.2.2.2.2
    rw [h28] at h29
    omega
  have hrep : replaceYear bday today.year = none := by
    rw [replaceYear, hm, hd, mkDateChecked, if_neg hnv]
  have hres : resolveOccurrence today bday = none := by
    rw [resolveOccurrence, hrep]
  show processUser today bday = none
  rw [processUser, hres]

/-- C3 witness: instantiating the amended theorem on a concrete leap-day
    contact with today in 2025. -/
theorem c3_witness :
    getBirthdaysPerWeekBook ⟨2025, 6, 10⟩
      [("Bob", ⟨"Bob", [], some ⟨2020, 2, 29⟩⟩)] = Except.error () :=
  c3_feb29_raises ⟨2025, 6, 10⟩ [("Bob", ⟨"Bob", [], some ⟨2020, 2, 29⟩⟩)]
    "Bob" ⟨"Bob", [], some ⟨2020, 2, 29⟩⟩ ⟨2020, 2, 29⟩ (by decide) rfl
    rfl rfl rfl
